import Mathlib

/-!
Verification development for the Lau bytecode toolkit.

The repository decodes a Lua 5.4 binary chunk into a structured IR
(a tree of functions whose bodies are control-flow blocks), optionally
transforms the IR (mutation engine, jump-trampoline devirtualizer) and
re-encodes it.  The file embeds, in order:

* a byte-level codec (loader and dumper) for the chunk format;
* the block/control data model and the functions over it from
  `src/main.rs` (`get_target_labels`, `is_unconditionnal`,
  `BlocksViewer::outputs`, the edge-connection logic of
  `parse_ron_data`);
* the mutation engine `try_mutate`;
* the devirtualizer (`optimize_jmp`, `fixup_code_v1`) and the
  trailing-byte handling of `disassemble_data`.

Binary data is modelled as `List Nat` with every byte required to be
`< 256` by the reader; machine words are read little-endian.  Fallible
operations return `Except String`.  Randomness (the `rand` crate) is
modelled as an explicit stream of draws `Nat → Nat` together with a
cursor position.  Recursive traversals that the source runs on
arbitrary (possibly cyclic) label graphs are modelled with explicit
fuel; termination theorems exhibit a sufficient fuel computed from the
input.
-/

/-! ## Byte-level codec

Modelled from the spec: the `lua54::loader` / `lua54::dumper` modules
are not part of `src/`; the chunk format is taken from the spec —
a fixed signature/version/format header, then one recursive `Proto`
record per function: parameter and flag bytes, a fixed-width (4-byte
little-endian) instruction array with an opcode validity check, a
tagged constant pool over the value tag space (nil, boolean, integer,
float, string), nested child records, upvalue descriptors and a
line-info table, every array preceded by its declared size field. -/

/-- Modelled from the spec: a constant-pool entry.  Floats are kept as
their 64-bit pattern, strings as byte lists. -/
inductive LuaValue where
  | nil : LuaValue
  | boolean (b : Bool) : LuaValue
  | integer (bits : Nat) : LuaValue
  | number (bits : Nat) : LuaValue
  | str (s : List Nat) : LuaValue
deriving DecidableEq, Repr

/-- Modelled from the spec: the wire-shaped compiled function record
(raw instruction stream, pre-CFG-recovery). -/
inductive Proto where
  | mk : (param_count : Nat) → (flags : Nat) → (code : List Nat) →
      (consts : List LuaValue) → (children : List Proto) →
      (upvals : List (Nat × Nat × Nat)) → (lines : List Nat) → Proto

/-- Fixed signature/version/format header of a chunk. -/
def luaHeader : List Nat := [27, 76, 117, 97, 84, 0]

/-- Number of opcodes in the known instruction set; a decoded word
whose opcode field (low 7 bits) falls outside it is rejected. -/
def numOpcodes : Nat := 83

/-- Read one byte; bytes are `Nat`s that must be `< 256`. -/
def readByte : List Nat → Except String (Nat × List Nat)
  | [] => .error "unexpected end of input"
  | b :: rest => if b < 256 then .ok (b, rest) else .error "not a byte"

/-- Write one byte. -/
def writeByte (b : Nat) : List Nat := [b % 256]

/-- Read one byte and require it to equal `c` (header matching). -/
def expectByte (c : Nat) (bytes : List Nat) : Except String (Unit × List Nat) :=
  match readByte bytes with
  | .error e => .error e
  | .ok (b, rest) => if b = c then .ok ((), rest) else .error "header mismatch"

/-- Require the input to start with the given byte sequence. -/
def expectBytes : List Nat → List Nat → Except String (Unit × List Nat)
  | [], bytes => .ok ((), bytes)
  | c :: cs, bytes =>
    match expectByte c bytes with
    | .error e => .error e
    | .ok (_, rest) => expectBytes cs rest

/-- Read an `n`-byte little-endian unsigned integer. -/
def readLE : Nat → List Nat → Except String (Nat × List Nat)
  | 0, bytes => .ok (0, bytes)
  | n + 1, bytes =>
    match readByte bytes with
    | .error e => .error e
    | .ok (b, rest) =>
      match readLE n rest with
      | .error e => .error e
      | .ok (v, rest') => .ok (b + 256 * v, rest')

/-- Write an `n`-byte little-endian unsigned integer. -/
def writeLE : Nat → Nat → List Nat
  | 0, _ => []
  | n + 1, v => v % 256 :: writeLE n (v / 256)

/-- Read `n` records with the reader `rd`. -/
def readCount (rd : List Nat → Except String (α × List Nat)) :
    Nat → List Nat → Except String (List α × List Nat)
  | 0, bytes => .ok ([], bytes)
  | n + 1, bytes =>
    match rd bytes with
    | .error e => .error e
    | .ok (a, rest) =>
      match readCount rd n rest with
      | .error e => .error e
      | .ok (l, rest') => .ok (a :: l, rest')

/-- Write each element of a list with the writer `wr`. -/
def writeAll (wr : α → List Nat) : List α → List Nat
  | [] => []
  | a :: l => wr a ++ writeAll wr l

/-- Read one fixed-width instruction word and validate its opcode. -/
def readInstrWord (bytes : List Nat) : Except String (Nat × List Nat) :=
  match readLE 4 bytes with
  | .error e => .error e
  | .ok (w, rest) =>
    if w % 128 < numOpcodes then .ok (w, rest) else .error "unknown opcode"

/-- Write one fixed-width instruction word. -/
def writeInstrWord (w : Nat) : List Nat := writeLE 4 w

/-- Read one tagged constant-pool entry. -/
def readValue (bytes : List Nat) : Except String (LuaValue × List Nat) :=
  match readByte bytes with
  | .error e => .error e
  | .ok (tag, r1) =>
    if tag = 0 then .ok (.nil, r1)
    else if tag = 1 then
      match readByte r1 with
      | .error e => .error e
      | .ok (b, r2) =>
        if b ≤ 1 then .ok (.boolean (b = 1), r2) else .error "bad boolean"
    else if tag = 2 then
      match readLE 8 r1 with
      | .error e => .error e
      | .ok (v, r2) => .ok (.integer v, r2)
    else if tag = 3 then
      match readLE 8 r1 with
      | .error e => .error e
      | .ok (v, r2) => .ok (.number v, r2)
    else if tag = 4 then
      match readLE 4 r1 with
      | .error e => .error e
      | .ok (len, r2) =>
        match readCount readByte len r2 with
        | .error e => .error e
        | .ok (s, r3) => .ok (.str s, r3)
    else .error "value tag outside the defined set"

/-- Write one tagged constant-pool entry. -/
def writeValue : LuaValue → List Nat
  | .nil => [0]
  | .boolean b => [1, if b then 1 else 0]
  | .integer v => 2 :: writeLE 8 v
  | .number v => 3 :: writeLE 8 v
  | .str s => 4 :: writeLE 4 s.length ++ writeAll writeByte s

/-- Read one upvalue descriptor (three raw bytes). -/
def readUpval (bytes : List Nat) : Except String ((Nat × Nat × Nat) × List Nat) :=
  match readByte bytes with
  | .error e => .error e
  | .ok (a, r1) =>
    match readByte r1 with
    | .error e => .error e
    | .ok (b, r2) =>
      match readByte r2 with
      | .error e => .error e
      | .ok (c, r3) => .ok ((a, b, c), r3)

/-- Write one upvalue descriptor. -/
def writeUpval (u : Nat × Nat × Nat) : List Nat := [u.1, u.2.1, u.2.2]

/-- Read one recursive `Proto` record; `fuel` bounds the nesting depth
of child records. -/
def readProto : Nat → List Nat → Except String (Proto × List Nat)
  | 0, _ => .error "nesting too deep"
  | fuel + 1, bytes =>
    match readByte bytes with
    | .error e => .error e
    | .ok (pc, r1) =>
      match readByte r1 with
      | .error e => .error e
      | .ok (fl, r2) =>
        match readLE 4 r2 with
        | .error e => .error e
        | .ok (ncode, r3) =>
          match readCount readInstrWord ncode r3 with
          | .error e => .error e
          | .ok (code, r4) =>
            match readLE 4 r4 with
            | .error e => .error e
            | .ok (nconst, r5) =>
              match readCount readValue nconst r5 with
              | .error e => .error e
              | .ok (consts, r6) =>
                match readLE 4 r6 with
                | .error e => .error e
                | .ok (nchild, r7) =>
                  match readCount (readProto fuel) nchild r7 with
                  | .error e => .error e
                  | .ok (children, r8) =>
                    match readLE 4 r8 with
                    | .error e => .error e
                    | .ok (nup, r9) =>
                      match readCount readUpval nup r9 with
                      | .error e => .error e
                      | .ok (upvals, r10) =>
                        match readLE 4 r10 with
                        | .error e => .error e
                        | .ok (nlines, r11) =>
                          match readCount readByte nlines r11 with
                          | .error e => .error e
                          | .ok (lines, r12) =>
                            .ok (Proto.mk pc fl code consts children upvals lines, r12)

mutual

/-- Write one recursive `Proto` record. -/
def writeProto : Proto → List Nat
  | .mk pc fl code consts children upvals lines =>
    writeByte pc ++ writeByte fl ++
      writeLE 4 code.length ++ writeAll writeInstrWord code ++
      writeLE 4 consts.length ++ writeAll writeValue consts ++
      writeLE 4 children.length ++ writeProtos children ++
      writeLE 4 upvals.length ++ writeAll writeUpval upvals ++
      writeLE 4 lines.length ++ writeAll writeByte lines

/-- Write a list of child `Proto` records. -/
def writeProtos : List Proto → List Nat
  | [] => []
  | p :: ps => writeProto p ++ writeProtos ps

end

/-- Modelled from the spec: `load_lua_module` — check the fixed header,
read the top-level `Proto` record and return the unused trailing bytes
together with the record (trailing bytes first, as in the source). -/
def load_lua_module (bytes : List Nat) : Except String (List Nat × Proto) :=
  match expectBytes luaHeader bytes with
  | .error e => .error e
  | .ok (_, rest) =>
    match readProto (bytes.length + 1) rest with
    | .error e => .error e
    | .ok (p, trail) => .ok (trail, p)

/-- Modelled from the spec: `dump_lua_module` — emit the header and the
top-level `Proto` record. -/
def dump_lua_module (p : Proto) : List Nat := luaHeader ++ writeProto p

/-! ## Block / control data model

Modelled from the spec: the types `Instruction`, `Condition`, `Target`,
`Control`, `Block` and `Function` live in the `common` / `lua54`
modules, which are not part of `src/`; their shape is taken from the
spec's data-model section.  The functions over them below
(`get_target_labels`, `is_unconditionnal`, `outputs`,
`ron_connections`, `try_mutate`, `optimize_jmp`, `fixup_code_v1`,
`disassemble_data`) are translated from `src/main.rs`. -/

/-- Modelled from the spec: a fixed-width operation record; opaque
payload for non-control-flow instructions. -/
structure Instruction where
  word : Nat
deriving DecidableEq, Repr

/-- Modelled from the spec: the condition operand of a conditional
terminator; opaque to every function in `src/main.rs`. -/
structure Condition where
  data : Nat
deriving DecidableEq, Repr

/-- Modelled from the spec: a branch target — a logical block label, or
a sentinel meaning "no concrete target / return / fallthrough exit". -/
inductive Target where
  | Label (n : Nat) : Target
  | Sentinel : Target
deriving DecidableEq, Repr

/-- Modelled from the spec: the typed terminator of a basic block. -/
inductive Control where
  | Unconditional (t : Target) : Control
  | Condition (c : Condition) (on_true on_false : Target) : Control
  | Loop (c : Condition) (on_false on_true : Target) : Control
  | LFalseSkip (c : Condition) (t : Target) : Control
  | Return0 : Control
  | Return1 (r : Nat) : Control
  | Return (a b c d : Nat) : Control
deriving DecidableEq, Repr

/-- Modelled from the spec: a basic block — a label, an ordered
instruction body and a typed terminator. -/
structure Block where
  label : Nat
  body : List Instruction
  edge : Control
deriving DecidableEq, Repr

/-- `Block::is_unconditionnal` from `src/main.rs`. -/
def Block.is_unconditionnal (b : Block) : Bool :=
  match b.edge with
  | .Unconditional _ => true
  | _ => false

/-- `Block::get_target_labels` from `src/main.rs`: the labels of the
block's edge targets, skipping non-`Label` targets; `Loop` pushes
`on_true` before `on_false`, the same positional order as
`Condition`. -/
def Block.get_target_labels (b : Block) : List Nat :=
  match b.edge with
  | .Condition _ on_true on_false =>
    (match on_true with | .Label l => [l] | _ => []) ++
    (match on_false with | .Label l => [l] | _ => [])
  | .Unconditional t =>
    (match t with | .Label l => [l] | _ => [])
  | .Loop _ on_false on_true =>
    (match on_true with | .Label l => [l] | _ => []) ++
    (match on_false with | .Label l => [l] | _ => [])
  | .LFalseSkip _ t =>
    (match t with | .Label l => [l] | _ => [])
  | _ => []

/-- `BlocksViewer::outputs` from `src/main.rs`: the number of output
pins the viewer exposes for a block, by terminator variant. -/
def Block.outputs (b : Block) : Nat :=
  match b.edge with
  | .Unconditional _ => 1
  | .Condition _ _ _ => 2
  | .Loop _ _ _ => 2
  | .Return _ _ _ _ => 0
  | .Return0 => 0
  | .Return1 _ => 0
  | .LFalseSkip _ _ => 1

/-- The edge-connection step of `EApp::parse_ron_data` from
`src/main.rs`, for one block: the `(output pin, target label)` pairs it
connects, given which labels have a node in the node map.  `Condition`
connects its true target on pin 0 and its false target on pin 1;
`Loop` connects `on_true` on pin 0 and `on_false` on pin 1; blocks
whose edge is `LFalseSkip` or a return connect nothing. -/
def ron_connections (hasNode : Nat → Bool) (b : Block) : List (Nat × Nat) :=
  match b.edge with
  | .Unconditional t =>
    (match t with
     | .Label tl => if hasNode b.label && hasNode tl then [(0, tl)] else []
     | _ => [])
  | .Condition _ on_true on_false =>
    (match on_true with
     | .Label tl => if hasNode b.label && hasNode tl then [(0, tl)] else []
     | _ => []) ++
    (match on_false with
     | .Label tl => if hasNode b.label && hasNode tl then [(1, tl)] else []
     | _ => [])
  | .Loop _ on_false on_true =>
    (match on_true with
     | .Label tl => if hasNode b.label && hasNode tl then [(0, tl)] else []
     | _ => []) ++
    (match on_false with
     | .Label tl => if hasNode b.label && hasNode tl then [(1, tl)] else []
     | _ => [])
  | _ => []

/-- The successor count the spec's invariant assigns to each
terminator variant: 0 for returns, 1 for `Unconditional` and
`LFalseSkip`, 2 for `Condition` and `Loop`.  Stated from the spec's
words, to be compared with the counts the code exposes. -/
def specSuccessorCount : Control → Nat
  | .Unconditional _ => 1
  | .Condition _ _ _ => 2
  | .Loop _ _ _ => 2
  | .LFalseSkip _ _ => 1
  | .Return0 => 0
  | .Return1 _ => 0
  | .Return _ _ _ _ => 0

/-- All targets of a terminator, sentinels included. -/
def Control.targetList : Control → List Target
  | .Unconditional t => [t]
  | .Condition _ on_true on_false => [on_true, on_false]
  | .Loop _ on_false on_true => [on_true, on_false]
  | .LFalseSkip _ t => [t]
  | .Return0 => []
  | .Return1 _ => []
  | .Return _ _ _ _ => []

/-- Whether every target of a terminator is a concrete `Label`. -/
def Control.allLabelTargets (e : Control) : Bool :=
  e.targetList.all (fun t => match t with | .Label _ => true | _ => false)

/-! ## Function tree and mutation engine -/

/-- Modelled from the spec: an upvalue descriptor (opaque to the
mutation engine). -/
structure Upvalue where
  instack : Nat
  idx : Nat
  kind : Nat
deriving DecidableEq, Repr

/-- Modelled from the spec: one compiled function in block-structured
form (`Function<Block>` in the source) — its block list, nested child
functions, upvalue list and constant/value list, each child, upvalue
and value carrying an ordering key, plus metadata. -/
inductive Func where
  | mk : (block_list : List Block) → (child_list : List (Nat × Func)) →
      (upval_list : List (Nat × Upvalue)) → (value_list : List (Nat × LuaValue)) →
      (param_count : Nat) → (flags : Nat) → Func

/-- The block list of a function. -/
def Func.block_list : Func → List Block
  | .mk bl _ _ _ _ _ => bl

/-- The child list of a function. -/
def Func.child_list : Func → List (Nat × Func)
  | .mk _ cl _ _ _ _ => cl

/-- The upvalue list of a function. -/
def Func.upval_list : Func → List (Nat × Upvalue)
  | .mk _ _ ul _ _ _ => ul

/-- The value list of a function. -/
def Func.value_list : Func → List (Nat × LuaValue)
  | .mk _ _ _ vl _ _ => vl

/-- The two mutation steps of `src/main.rs`. -/
inductive Mutation where
  | Random : Mutation
  | Sorted : Mutation
deriving DecidableEq, Repr

/-- Modelled from the spec: one uniformly random permutation of a list
(`SliceRandom::shuffle` of the external `rand` crate), driven by an
explicit stream of draws `g` read from cursor position `pos`:
repeatedly pick the element at a drawn index and continue on the
remainder.  Returns the shuffled list and the advanced cursor. -/
def shuffleWith (g : Nat → Nat) (pos : Nat) (xs : List α) : List α × Nat :=
  if h : xs.length = 0 then (xs, pos)
  else
    have hi : g pos % xs.length < xs.length :=
      Nat.mod_lt _ (Nat.pos_of_ne_zero h)
    let p := shuffleWith g (pos + 1) (xs.eraseIdx (g pos % xs.length))
    (xs[g pos % xs.length] :: p.1, p.2)
termination_by xs.length
decreasing_by simp [List.length_eraseIdx, hi]; omega

/-- Insert an element into a list sorted by `key`, after any elements
of strictly smaller key and before the first element of
greater-or-equal key. -/
def insertByKey (key : α → Nat) (x : α) : List α → List α
  | [] => [x]
  | y :: ys => if key x ≤ key y then x :: y :: ys else y :: insertByKey key x ys

/-- Stable sort by `key` (insertion sort), the model of the source's
stable `sort_by_key`. -/
def sortByKey (key : α → Nat) : List α → List α
  | [] => []
  | x :: xs => insertByKey key x (sortByKey key xs)

/-- One step of the loop body of `try_mutate` from `src/main.rs`:
`Random` shuffles the four positional containers in order, `Sorted`
sorts `block_list` by label and the other three by their key. -/
def applyStep (g : Nat → Nat) (st : Func × Nat) (m : Mutation) : Func × Nat :=
  match st, m with
  | (.mk bl cl ul vl pc fl, pos), .Random =>
    let b := shuffleWith g pos bl
    let c := shuffleWith g b.2 cl
    let u := shuffleWith g c.2 ul
    let v := shuffleWith g u.2 vl
    (.mk b.1 c.1 u.1 v.1 pc fl, v.2)
  | (.mk bl cl ul vl pc fl, pos), .Sorted =>
    (.mk (sortByKey Block.label bl) (sortByKey Prod.fst cl)
      (sortByKey Prod.fst ul) (sortByKey Prod.fst vl) pc fl, pos)

mutual

/-- `try_mutate` from `src/main.rs`: recursively mutate every child
function first, then run the requested steps in order on this
function's own four positional containers.  The random stream cursor is
threaded through the whole traversal, as the single `rng` is in the
source. -/
def try_mutate (f : Func) (opt : List Mutation) (g : Nat → Nat) (pos : Nat) :
    Func × Nat :=
  match f with
  | .mk bl cl ul vl pc fl =>
    let c := mutateChildren cl opt g pos
    opt.foldl (applyStep g) (Func.mk bl c.1 ul vl pc fl, c.2)

/-- The child loop of `try_mutate`: mutate each `(key, child)` pair in
order, threading the stream cursor. -/
def mutateChildren (cs : List (Nat × Func)) (opt : List Mutation)
    (g : Nat → Nat) (pos : Nat) : List (Nat × Func) × Nat :=
  match cs with
  | [] => ([], pos)
  | (k, cf) :: rest =>
    let m := try_mutate cf opt g pos
    let ms := mutateChildren rest opt g m.2
    ((k, m.1) :: ms.1, ms.2)

end

mutual

/-- The relation "`h` differs from `f` only by permutations of the four
positional containers at each node": blocks, upvalues and values are
permuted as whole elements, and the child list is a permutation of the
original children each mutated by the same relation under its original
key. -/
inductive Permuted : Func → Func → Prop where
  | mk : ∀ bl cl ul vl pc fl bl' cl' ul' vl' mid,
      List.Perm bl' bl → List.Perm ul' ul → List.Perm vl' vl →
      PermutedChildren cl mid → List.Perm mid cl' →
      Permuted (.mk bl cl ul vl pc fl) (.mk bl' cl' ul' vl' pc fl)

/-- Pointwise `Permuted` on child lists, keys kept in place. -/
inductive PermutedChildren : List (Nat × Func) → List (Nat × Func) → Prop where
  | nil : PermutedChildren [] []
  | cons : ∀ k f h rest rest', Permuted f h → PermutedChildren rest rest' →
      PermutedChildren ((k, f) :: rest) ((k, h) :: rest')

end

/-! ## Devirtualizer and command handlers -/

/-- The label-to-block mapping `fixup_code_v1` builds; modelled as an
association list with latest-insert-wins lookup, matching `HashMap`. -/
abbrev BlockMap : Type := List (Nat × Block)

/-- `HashMap::get`: the block stored under a label, if any. -/
def lookupBlock (m : BlockMap) (k : Nat) : Option Block :=
  ((List.find? (fun p => p.1 == k) m)).map (fun p => p.2)

/-- `HashMap::insert`: store a block under a label, replacing any
previous entry for that label. -/
def insertBlock (k : Nat) (v : Block) (m : BlockMap) : BlockMap :=
  (k, v) :: List.filter (fun p => p.1 != k) m

/-- The map-building loop of `fixup_code_v1`: insert every block of the
function under its label. -/
def buildBlockMap (bl : List Block) : BlockMap :=
  bl.foldl (fun m b => insertBlock b.label b m) []

/-- The diagnostic lines `optimize_jmp` prints, as
`(node, trampoline label, resolved target)` triples. -/
abbrev DevirtLog : Type := List (Nat × Nat × Nat)

/-- The target loop inside `optimize_jmp`, parameterized by the
recursive call `recur`: for each target label of the visited block, if
the map holds a block for it whose own target list is non-empty, log a
"fake jmp" triple when that block is an empty-bodied unconditional
trampoline, then recurse into the trampoline's first target.  The map
and visited set are threaded; `none` signals fuel exhaustion of the
recursive call. -/
def goTargets
    (recur : BlockMap → List Nat → Nat → Option (BlockMap × List Nat × DevirtLog)) :
    BlockMap → List Nat → List Nat → Nat → Option (BlockMap × List Nat × DevirtLog)
  | map, visited, [], _ => some (map, visited, [])
  | map, visited, t :: ts, node =>
    match lookupBlock map t with
    | none => goTargets recur map visited ts node
    | some tblk =>
      match tblk.get_target_labels.head? with
      | none => goTargets recur map visited ts node
      | some tid =>
        let entry :=
          if tblk.body.isEmpty && tblk.is_unconditionnal then
            [(node, tblk.label, tid)]
          else []
        match recur map visited tid with
        | none => none
        | some (m1, v1, l1) =>
          match goTargets recur m1 v1 ts node with
          | none => none
          | some (m2, v2, l2) => some (m2, v2, entry ++ l1 ++ l2)

/-- `optimize_jmp` from `src/main.rs`, with explicit fuel: return
immediately if the node is already visited, otherwise mark it visited
and, if the map holds a block for it, run the target loop on that
block's target labels.  Returns the final map, visited set and
diagnostic log; `none` means the fuel ran out. -/
def optimize_jmp : Nat → BlockMap → List Nat → Nat →
    Option (BlockMap × List Nat × DevirtLog)
  | 0, _, _, _ => none
  | fuel + 1, map, visited, node =>
    if node ∈ visited then some (map, visited, [])
    else
      match lookupBlock map node with
      | none => some (map, node :: visited, [])
      | some blk =>
        goTargets (optimize_jmp fuel) map (node :: visited)
          blk.get_target_labels node

/-- Every target label appearing in a block map; the labels
`optimize_jmp` can ever recurse into. -/
def allTargetLabels (m : BlockMap) : List Nat :=
  m.flatMap (fun p => p.2.get_target_labels)

/-- Fuel sufficient for `optimize_jmp` to finish on a given map. -/
def devirtFuel (m : BlockMap) : Nat := (allTargetLabels m).toFinset.card + 2

/-- `fixup_code_v1` from `src/main.rs`, after the external RON
deserialization: build the label-to-block map, index it at label 0
(the source's `block_map[&r]`, a panic when absent, modelled as an
error) and run `optimize_jmp` from entry label 0 with fresh visited
set. -/
def fixup_code_v1 (f : Func) : Except String (BlockMap × List Nat × DevirtLog) :=
  let map := buildBlockMap f.block_list
  match lookupBlock map 0 with
  | none => .error "no block with label 0"
  | some _ =>
    match optimize_jmp (devirtFuel map) map [] 0 with
    | none => .error "out of fuel"
    | some st => .ok st

/-- `disassemble_data` from `src/main.rs`: decode the bytes (a failure
is the source's `expect` panic), then treat a non-empty trailing
remainder as fatal before any output is produced; otherwise recover the
function tree (`Function::from`, code not under `src/`, passed here as
`functionFrom`), mutate it and return the serialized payload. -/
def disassemble_data (functionFrom : Proto → Func) (opt : List Mutation)
    (g : Nat → Nat) (pos : Nat) (data : List Nat) : Except String Func :=
  match load_lua_module data with
  | .error _ => .error "not valid Lua 5.4 bytecode"
  | .ok (trail, proto) =>
    if trail.isEmpty then .ok (try_mutate (functionFrom proto) opt g pos).1
    else .error "trailing garbage in Lua file"

/-! ## Theorems -/

/-! ### Edge counts and loop edge order (C5, C6) -/

/-- Claim C5, counterexample: a block whose edge is `Unconditional` on
a sentinel target exposes 0 successor labels, not the claimed 1 —
`get_target_labels` omits non-`Label` targets. -/
theorem claim_C5_sentinel_counterexample :
    (Block.mk 5 [] (Control.Unconditional Target.Sentinel)).get_target_labels.length ≠ 1 := by
  decide

/-- Claim C5, amended: the number of output pins the block model
exposes (`outputs`) is exactly 0 for returns, 1 for `Unconditional` and
`LFalseSkip`, 2 for `Condition` and `Loop`; the successor-label list
(`get_target_labels`) has exactly that length whenever every target of
the edge is a concrete `Label` (sentinel targets are omitted from
it). -/
theorem claim_C5_successor_counts (b : Block) :
    b.outputs = specSuccessorCount b.edge ∧
    (b.edge.allLabelTargets = true →
      b.get_target_labels.length = specSuccessorCount b.edge) := by
  obtain ⟨lbl, body, e⟩ := b
  refine ⟨by cases e <;> rfl, fun h => ?_⟩
  cases e with
  | Unconditional t =>
    cases t <;>
      simp_all [Control.allLabelTargets, Control.targetList,
        Block.get_target_labels, specSuccessorCount]
  | Condition c t1 t2 =>
    cases t1 <;> cases t2 <;>
      simp_all [Control.allLabelTargets, Control.targetList,
        Block.get_target_labels, specSuccessorCount]
  | Loop c t1 t2 =>
    cases t1 <;> cases t2 <;>
      simp_all [Control.allLabelTargets, Control.targetList,
        Block.get_target_labels, specSuccessorCount]
  | LFalseSkip c t =>
    cases t <;>
      simp_all [Control.allLabelTargets, Control.targetList,
        Block.get_target_labels, specSuccessorCount]
  | Return0 => rfl
  | Return1 r => rfl
  | Return a b c d => rfl

/-- Witness for `claim_C5_successor_counts` at a concrete conditional
block with two label targets. -/
theorem claim_C5_successor_counts_witness :
    (Block.mk 0 [] (Control.Condition ⟨0⟩ (Target.Label 1) (Target.Label 2))).outputs
      = specSuccessorCount (Block.mk 0 [] (Control.Condition ⟨0⟩ (Target.Label 1) (Target.Label 2))).edge ∧
    (Block.mk 0 [] (Control.Condition ⟨0⟩ (Target.Label 1) (Target.Label 2))).get_target_labels.length
      = specSuccessorCount (Block.mk 0 [] (Control.Condition ⟨0⟩ (Target.Label 1) (Target.Label 2))).edge :=
  ⟨(claim_C5_successor_counts _).1, (claim_C5_successor_counts _).2 (by decide)⟩

/-- Claim C6: a `Loop(cond, on_false, on_true)` edge is exposed to
consumers in canonical (true, false) order — both the successor-label
list and the editor's pin connections for it coincide with those of
`Condition(cond, on_true, on_false)`: the exit edge `on_true` comes
first (pin 0) and the back-edge `on_false` second (pin 1). -/
theorem claim_C6_loop_canonical_order (c : Condition) (onFalse onTrue : Target)
    (lbl : Nat) (body : List Instruction) (hasNode : Nat → Bool) :
    (Block.mk lbl body (Control.Loop c onFalse onTrue)).get_target_labels
      = (Block.mk lbl body (Control.Condition c onTrue onFalse)).get_target_labels ∧
    ron_connections hasNode (Block.mk lbl body (Control.Loop c onFalse onTrue))
      = ron_connections hasNode (Block.mk lbl body (Control.Condition c onTrue onFalse)) :=
  ⟨rfl, rfl⟩

/-! ### Devirtualizer entry precondition (C10) -/

/-- `find?` ignores a filter that keeps everything the predicate could
return. -/
theorem find?_filter_eq (p q : α → Bool) (l : List α)
    (h : ∀ x, p x = true → q x = true) :
    List.find? p (l.filter q) = List.find? p l := by
  induction l with
  | nil => rfl
  | cons a l ih =>
    cases hq : q a with
    | true =>
      rw [List.filter_cons_of_pos hq]
      cases hp : p a with
      | true => rw [List.find?_cons_of_pos _ hp, List.find?_cons_of_pos _ hp]
      | false =>
        rw [List.find?_cons_of_neg _ (by simp [hp]),
          List.find?_cons_of_neg _ (by simp [hp]), ih]
    | false =>
      have hp : p a = false := by
        cases hpa : p a
        · rfl
        · exact absurd (h a hpa) (by simp [hq])
      rw [List.filter_cons_of_neg (by simp [hq]),
        List.find?_cons_of_neg _ (by simp [hp]), ih]

/-- Inserting a block under a different label does not change a
lookup. -/
theorem lookupBlock_insert_ne (j k : Nat) (v : Block) (m : BlockMap)
    (h : j ≠ k) :
    lookupBlock (insertBlock j v m) k = lookupBlock m k := by
  unfold lookupBlock insertBlock
  rw [List.find?_cons_of_neg _ (by simp [h])]
  rw [find?_filter_eq _ _ _ (fun x hx => ?_)]
  simp only [beq_iff_eq] at hx
  simp [bne_iff_ne, hx, Ne.symm h]

/-- Folding blocks into a map never creates an entry for a label no
block carries. -/
theorem lookupBlock_foldl_of_not_mem (bl : List Block) (m : BlockMap) (k : Nat)
    (h : ∀ b ∈ bl, b.label ≠ k) :
    lookupBlock (bl.foldl (fun m b => insertBlock b.label b m) m) k
      = lookupBlock m k := by
  induction bl generalizing m with
  | nil => rfl
  | cons b bl ih =>
    rw [List.foldl_cons, ih _ (fun x hx => h x (List.mem_cons_of_mem _ hx)),
      lookupBlock_insert_ne _ _ _ _ (h b (List.mem_cons_self _ _))]

/-- Claim C10: `fixup_code_v1` indexes the label-to-block map at label
0 before any traversal, so on a function without a block labeled 0 it
fails there and performs no traversal. -/
theorem claim_C10_entry_precondition (f : Func)
    (h : ∀ b ∈ f.block_list, b.label ≠ 0) :
    fixup_code_v1 f = .error "no block with label 0" := by
  unfold fixup_code_v1
  have hnone : lookupBlock (buildBlockMap f.block_list) 0 = none :=
    lookupBlock_foldl_of_not_mem _ _ _ h
  simp [buildBlockMap] at hnone
  simp [buildBlockMap, hnone]

/-- Witness for `claim_C10_entry_precondition` at a one-block function
whose only label is 1. -/
theorem claim_C10_entry_precondition_witness :
    (∀ b ∈ (Func.mk [Block.mk 1 [] Control.Return0] [] [] [] 0 0).block_list,
      b.label ≠ 0) ∧
    fixup_code_v1 (Func.mk [Block.mk 1 [] Control.Return0] [] [] [] 0 0)
      = .error "no block with label 0" :=
  ⟨by decide, claim_C10_entry_precondition _ (by decide)⟩

/-! ### Devirtualizer frame property and the missing rewrite (C2, C4) -/

/-- The target loop returns the block map it was given, provided the
recursive call does. -/
theorem goTargets_map_eq
    (recur : BlockMap → List Nat → Nat → Option (BlockMap × List Nat × DevirtLog))
    (hrec : ∀ m v n r, recur m v n = some r → r.1 = m) :
    ∀ ts map visited node r,
      goTargets recur map visited ts node = some r → r.1 = map := by
  intro ts
  induction ts with
  | nil =>
    intro map visited node r h
    unfold goTargets at h
    cases h
    rfl
  | cons t ts ih =>
    intro map visited node r h
    unfold goTargets at h
    split at h
    · exact ih _ _ _ _ h
    · split at h
      · exact ih _ _ _ _ h
      · split at h
        all_goals
          split at h
          · cases h
          · rename_i m1 v1 l1 hr
            split at h
            · cases h
            · rename_i m2 v2 l2 hg
              cases h
              have hm1 : m1 = map := hrec _ _ _ _ hr
              have hm2 := ih _ _ _ _ hg
              simp only at hm2
              simp only [hm2, hm1]

/-- `optimize_jmp` returns the block map it was given: the source
never writes through its `&mut` map, it only prints. -/
theorem optimize_jmp_map_eq :
    ∀ fuel map visited node r,
      optimize_jmp fuel map visited node = some r → r.1 = map := by
  intro fuel
  induction fuel with
  | zero => intro map visited node r h; cases h
  | succ fuel ih =>
    intro map visited node r h
    simp only [optimize_jmp] at h
    split at h
    · cases h; rfl
    · cases hl : lookupBlock map node with
      | none => rw [hl] at h; cases h; rfl
      | some blk =>
        rw [hl] at h
        exact goTargets_map_eq _ ih _ _ _ _ _ h

/-- Claim C4: running the devirtualization pass from an entry label
leaves the block map — every label, body and edge — unchanged; the
reported rewrites are diagnostic log entries only. -/
theorem claim_C4_devirt_frame (fuel : Nat) (map : BlockMap) (entry : Nat)
    (st : BlockMap × List Nat × DevirtLog)
    (h : optimize_jmp fuel map [] entry = some st) : st.1 = map :=
  optimize_jmp_map_eq fuel map [] entry st h

/-- Witness for `claim_C4_devirt_frame` on the four-block trampoline
chain `0 → 1 → 2 → 3`: the pass terminates and hands back the very
same map. -/
theorem claim_C4_devirt_frame_witness :
    (([(3, Block.mk 3 [] Control.Return0),
       (2, Block.mk 2 [] (Control.Unconditional (Target.Label 3))),
       (1, Block.mk 1 [] (Control.Unconditional (Target.Label 2))),
       (0, Block.mk 0 [] (Control.Unconditional (Target.Label 1)))],
      ([2, 0] : List Nat), ([(0, 1, 2)] : DevirtLog)) : BlockMap × List Nat × DevirtLog).1
      = [(3, Block.mk 3 [] Control.Return0),
         (2, Block.mk 2 [] (Control.Unconditional (Target.Label 3))),
         (1, Block.mk 1 [] (Control.Unconditional (Target.Label 2))),
         (0, Block.mk 0 [] (Control.Unconditional (Target.Label 1)))] :=
  claim_C4_devirt_frame 5
    [(3, Block.mk 3 [] Control.Return0),
     (2, Block.mk 2 [] (Control.Unconditional (Target.Label 3))),
     (1, Block.mk 1 [] (Control.Unconditional (Target.Label 2))),
     (0, Block.mk 0 [] (Control.Unconditional (Target.Label 1)))]
    0 _ (by decide)

/-- Claim C2, divergence of the code from the claim: on the trampoline
chain `Entry(0) → T1(1) → T2(2) → Target(3)` (T1, T2 empty-bodied
unconditional trampolines) the pass only logs a diagnostic and returns
the map unchanged — after it runs, Entry's edge still targets label 1
(T1), not label 3 (Target). -/
theorem claim_C2_entry_edge_not_rewritten :
    optimize_jmp 5
      [(3, Block.mk 3 [] Control.Return0),
       (2, Block.mk 2 [] (Control.Unconditional (Target.Label 3))),
       (1, Block.mk 1 [] (Control.Unconditional (Target.Label 2))),
       (0, Block.mk 0 [] (Control.Unconditional (Target.Label 1)))]
      [] 0
      = some
        ([(3, Block.mk 3 [] Control.Return0),
          (2, Block.mk 2 [] (Control.Unconditional (Target.Label 3))),
          (1, Block.mk 1 [] (Control.Unconditional (Target.Label 2))),
          (0, Block.mk 0 [] (Control.Unconditional (Target.Label 1)))],
         [2, 0], [(0, 1, 2)]) ∧
    lookupBlock
      [(3, Block.mk 3 [] Control.Return0),
       (2, Block.mk 2 [] (Control.Unconditional (Target.Label 3))),
       (1, Block.mk 1 [] (Control.Unconditional (Target.Label 2))),
       (0, Block.mk 0 [] (Control.Unconditional (Target.Label 1)))] 0
      = some (Block.mk 0 [] (Control.Unconditional (Target.Label 1))) := by
  constructor <;> decide

/-! ### Devirtualizer termination (C3) -/

/-- The target loop only ever grows the visited set, provided the
recursive call does. -/
theorem goTargets_visited_sub
    (recur : BlockMap → List Nat → Nat → Option (BlockMap × List Nat × DevirtLog))
    (hrec : ∀ m v n r, recur m v n = some r → v ⊆ r.2.1) :
    ∀ ts map visited node r,
      goTargets recur map visited ts node = some r → visited ⊆ r.2.1 := by
  intro ts
  induction ts with
  | nil =>
    intro map visited node r h
    unfold goTargets at h
    cases h
    exact List.Subset.refl _
  | cons t ts ih =>
    intro map visited node r h
    unfold goTargets at h
    split at h
    · exact ih _ _ _ _ h
    · split at h
      · exact ih _ _ _ _ h
      · split at h
        all_goals
          split at h
          · cases h
          · rename_i m1 v1 l1 hr
            split at h
            · cases h
            · rename_i m2 v2 l2 hg
              cases h
              exact List.Subset.trans (hrec _ _ _ _ hr) (ih m1 v1 node (m2, v2, l2) hg)

/-- `optimize_jmp` only ever grows the visited set. -/
theorem optimize_jmp_visited_sub :
    ∀ fuel map visited node r,
      optimize_jmp fuel map visited node = some r → visited ⊆ r.2.1 := by
  intro fuel
  induction fuel with
  | zero => intro map visited node r h; cases h
  | succ fuel ih =>
    intro map visited node r h
    simp only [optimize_jmp] at h
    split at h
    · cases h; exact List.Subset.refl _
    · cases hl : lookupBlock map node with
      | none =>
        rw [hl] at h
        cases h
        exact List.subset_cons_self _ _
      | some blk =>
        rw [hl] at h
        exact List.Subset.trans (List.subset_cons_self _ _)
          (goTargets_visited_sub _ ih _ _ _ _ _ h)

/-- A label found through the map whose block lists it as a target is
one of the map's target labels. -/
theorem mem_allTargetLabels_of_lookup (m : BlockMap) (k tid : Nat)
    (tblk : Block) (hl : lookupBlock m k = some tblk)
    (ht : tid ∈ tblk.get_target_labels) : tid ∈ allTargetLabels m := by
  unfold lookupBlock at hl
  cases hf : List.find? (fun p => p.1 == k) m with
  | none => rw [hf] at hl; cases hl
  | some p =>
    rw [hf] at hl
    cases hl
    exact List.mem_flatMap.mpr ⟨p, List.mem_of_find?_eq_some hf, ht⟩

/-- With fuel exceeding the number of candidate labels not yet
visited, `optimize_jmp` cannot run out: every recursive step either
returns at once or permanently consumes one unvisited label. -/
theorem optimize_jmp_isSome_of_card :
    ∀ fuel map visited node,
      ((insert node (allTargetLabels map).toFinset) \ visited.toFinset).card < fuel →
      (optimize_jmp fuel map visited node).isSome = true := by
  intro fuel
  induction fuel with
  | zero => intro map visited node hcard; omega
  | succ fuel ih =>
    intro map visited node hcard
    simp only [optimize_jmp]
    split
    · rfl
    · rename_i hnotmem
      have key : ∀ ts v',
          ((allTargetLabels map).toFinset \ v'.toFinset).card < fuel →
          (goTargets (optimize_jmp fuel) map v' ts node).isSome = true := by
        intro ts
        induction ts with
        | nil => intro v' hv; rfl
        | cons t ts ihts =>
          intro v' hv
          unfold goTargets
          cases hl : lookupBlock map t with
          | none => exact ihts v' hv
          | some tblk =>
            simp only
            cases hh : tblk.get_target_labels.head? with
            | none => exact ihts v' hv
            | some tid =>
              simp only
              have htid : tid ∈ (allTargetLabels map).toFinset :=
                List.mem_toFinset.mpr (mem_allTargetLabels_of_lookup map t tid tblk hl
                  (List.mem_of_mem_head? hh))
              have hrec : (optimize_jmp fuel map v' tid).isSome = true := by
                apply ih
                rw [Finset.insert_eq_self.mpr htid]
                exact hv
              cases hrr : optimize_jmp fuel map v' tid with
              | none => rw [hrr] at hrec; cases hrec
              | some r1 =>
                obtain ⟨m1, v1, l1⟩ := r1
                have hm1 : m1 = map := optimize_jmp_map_eq _ _ _ _ _ hrr
                have hsub : v' ⊆ v1 := optimize_jmp_visited_sub _ _ _ _ _ hrr
                have hmono : (allTargetLabels map).toFinset \ v1.toFinset
                    ⊆ (allTargetLabels map).toFinset \ v'.toFinset := by
                  apply Finset.sdiff_subset_sdiff (Finset.Subset.refl _)
                  intro x hx
                  rw [List.mem_toFinset] at hx ⊢
                  exact hsub hx
                have hv1 := ihts v1 (lt_of_le_of_lt (Finset.card_le_card hmono) hv)
                rw [hm1]
                dsimp only
                cases hgg : goTargets (optimize_jmp fuel) map v1 ts node with
                | none => rw [hgg] at hv1; cases hv1
                | some r2 => rfl
      have hnode : node ∈ insert node (allTargetLabels map).toFinset \ visited.toFinset := by
        rw [Finset.mem_sdiff]
        refine ⟨Finset.mem_insert_self _ _, ?_⟩
        rw [List.mem_toFinset]
        exact hnotmem
      have hstep : ((allTargetLabels map).toFinset \ (node :: visited).toFinset).card < fuel := by
        have hsub2 : (allTargetLabels map).toFinset \ (node :: visited).toFinset
            ⊆ (insert node (allTargetLabels map).toFinset \ visited.toFinset).erase node := by
          intro x hx
          rw [Finset.mem_sdiff, List.toFinset_cons, Finset.mem_insert] at hx
          push_neg at hx
          rw [Finset.mem_erase, Finset.mem_sdiff]
          exact ⟨hx.2.1, Finset.mem_insert_of_mem hx.1, hx.2.2⟩
        have hle := Finset.card_le_card hsub2
        rw [Finset.card_erase_of_mem hnode] at hle
        have hpos : 0 < (insert node (allTargetLabels map).toFinset \ visited.toFinset).card :=
          Finset.card_pos.mpr ⟨node, hnode⟩
        omega
      cases hl : lookupBlock map node with
      | none => rfl
      | some blk => exact key _ _ hstep

/-- Claim C3: on every finite block map — trampoline cycles included —
the devirtualization traversal terminates from any entry label: the
computable fuel `devirtFuel`, derived from the visited-set argument
(each label is processed at most once), is enough for `optimize_jmp`
to return a result. -/
theorem claim_C3_devirt_terminates (map : BlockMap) (entry : Nat) :
    (optimize_jmp (devirtFuel map) map [] entry).isSome = true := by
  apply optimize_jmp_isSome_of_card
  unfold devirtFuel
  have hempty : (([] : List Nat)).toFinset = (∅ : Finset Nat) := rfl
  rw [hempty, Finset.sdiff_empty]
  have := Finset.card_insert_le entry (allTargetLabels map).toFinset
  omega

/-! ### Mutation engine (C7, C8) -/

/-- A list is a permutation of any element pulled to the front of its
remainder. -/
theorem perm_getElem_cons_eraseIdx (l : List α) (i : Nat) (h : i < l.length) :
    l.Perm (l[i] :: l.eraseIdx i) := by
  conv_lhs => rw [← List.take_append_drop i l, ← List.getElem_cons_drop l i h]
  rw [List.eraseIdx_eq_take_drop_succ]
  exact List.perm_middle

/-- The random shuffle returns a permutation of its input, whatever the
draw stream supplies. -/
theorem shuffleWith_perm_aux (g : Nat → Nat) :
    ∀ (n : Nat) (xs : List α) (pos : Nat), xs.length = n →
      (shuffleWith g pos xs).1.Perm xs := by
  intro n
  induction n using Nat.strong_induction_on with
  | _ n ih =>
    intro xs pos hn
    rw [shuffleWith]
    split
    · exact List.Perm.refl _
    · rename_i h
      have hi : g pos % xs.length < xs.length :=
        Nat.mod_lt _ (Nat.pos_of_ne_zero h)
      dsimp only
      have hlen : (xs.eraseIdx (g pos % xs.length)).length < n := by
        rw [List.length_eraseIdx]
        simp only [hi, if_pos]
        omega
      have hperm := ih _ hlen (xs.eraseIdx (g pos % xs.length)) (pos + 1) rfl
      exact (hperm.cons _).trans (perm_getElem_cons_eraseIdx xs _ hi).symm

/-- The random shuffle returns a permutation of its input. -/
theorem shuffleWith_perm (g : Nat → Nat) (pos : Nat) (xs : List α) :
    (shuffleWith g pos xs).1.Perm xs :=
  shuffleWith_perm_aux g xs.length xs pos rfl

/-- Inserting into a list is a permutation of consing. -/
theorem insertByKey_perm (key : α → Nat) (x : α) (l : List α) :
    (insertByKey key x l).Perm (x :: l) := by
  induction l with
  | nil => exact List.Perm.refl _
  | cons y ys ih =>
    rw [insertByKey]
    split
    · exact List.Perm.refl _
    · exact (ih.cons y).trans (List.Perm.swap x y ys)

/-- The stable sort returns a permutation of its input. -/
theorem sortByKey_perm (key : α → Nat) (l : List α) :
    (sortByKey key l).Perm l := by
  induction l with
  | nil => exact List.Perm.refl _
  | cons x xs ih =>
    rw [sortByKey]
    exact (insertByKey_perm key x (sortByKey key xs)).trans (ih.cons x)

/-- Inserting into a key-sorted list keeps it key-sorted. -/
theorem insertByKey_pairwise (key : α → Nat) (x : α) (l : List α)
    (h : List.Pairwise (fun a b => key a ≤ key b) l) :
    List.Pairwise (fun a b => key a ≤ key b) (insertByKey key x l) := by
  induction l with
  | nil => exact List.pairwise_cons.mpr ⟨fun a ha => absurd ha (List.not_mem_nil a), List.Pairwise.nil⟩
  | cons y ys ih =>
    rw [insertByKey]
    obtain ⟨hy, hys⟩ := List.pairwise_cons.mp h
    split
    · rename_i hxy
      refine List.pairwise_cons.mpr ⟨?_, h⟩
      intro a ha
      rcases List.mem_cons.mp ha with rfl | ha
      · exact hxy
      · exact Nat.le_trans hxy (hy a ha)
    · rename_i hxy
      refine List.pairwise_cons.mpr ⟨?_, ih hys⟩
      intro a ha
      have := (insertByKey_perm key x ys).mem_iff.mp ha
      rcases List.mem_cons.mp this with rfl | ha'
      · omega
      · exact hy a ha'

/-- The stable sort produces a key-sorted list. -/
theorem sortByKey_pairwise (key : α → Nat) (l : List α) :
    List.Pairwise (fun a b => key a ≤ key b) (sortByKey key l) := by
  induction l with
  | nil => exact List.Pairwise.nil
  | cons x xs ih => exact insertByKey_pairwise key x _ ih

/-- Sorting a list that is already key-sorted leaves it unchanged. -/
theorem sortByKey_of_pairwise (key : α → Nat) (l : List α)
    (h : List.Pairwise (fun a b => key a ≤ key b) l) :
    sortByKey key l = l := by
  induction l with
  | nil => rfl
  | cons x xs ih =>
    obtain ⟨hx, hxs⟩ := List.pairwise_cons.mp h
    rw [sortByKey, ih hxs]
    cases xs with
    | nil => rfl
    | cons y ys =>
      rw [insertByKey, if_pos (hx y (List.mem_cons_self _ _))]

/-- The stable sort is idempotent. -/
theorem sortByKey_idem (key : α → Nat) (l : List α) :
    sortByKey key (sortByKey key l) = sortByKey key l :=
  sortByKey_of_pairwise key _ (sortByKey_pairwise key l)

/-- One mutation step keeps the result `Permuted`-related to the
original function. -/
theorem applyStep_permuted (g : Nat → Nat) (f : Func) (st : Func × Nat)
    (m : Mutation) (h : Permuted f st.1) : Permuted f (applyStep g st m).1 := by
  obtain ⟨cur, pos⟩ := st
  cases h with
  | mk bl cl ul vl pc fl bl' cl' ul' vl' mid hbl hul hvl hch hmid =>
    cases m with
    | Random =>
      simp only [applyStep]
      exact Permuted.mk bl cl ul vl pc fl _ _ _ _ mid
        ((shuffleWith_perm g _ bl').trans hbl)
        ((shuffleWith_perm g _ ul').trans hul)
        ((shuffleWith_perm g _ vl').trans hvl)
        hch (hmid.trans ((shuffleWith_perm g _ cl').symm))
    | Sorted =>
      simp only [applyStep]
      exact Permuted.mk bl cl ul vl pc fl _ _ _ _ mid
        ((sortByKey_perm Block.label bl').trans hbl)
        ((sortByKey_perm Prod.fst ul').trans hul)
        ((sortByKey_perm Prod.fst vl').trans hvl)
        hch (hmid.trans ((sortByKey_perm Prod.fst cl').symm))

/-- Folding any sequence of mutation steps keeps the result
`Permuted`-related to the original function. -/
theorem foldl_applyStep_permuted (g : Nat → Nat) (opt : List Mutation) :
    ∀ (st : Func × Nat) (f : Func), Permuted f st.1 →
      Permuted f (opt.foldl (applyStep g) st).1 := by
  induction opt with
  | nil => intro st f h; exact h
  | cons m opt ih =>
    intro st f h
    rw [List.foldl_cons]
    exact ih _ _ (applyStep_permuted g f st m h)

mutual

/-- `try_mutate` only permutes the four positional containers at each
node of the function tree. -/
theorem try_mutate_permuted (f : Func) (opt : List Mutation) (g : Nat → Nat)
    (pos : Nat) : Permuted f (try_mutate f opt g pos).1 :=
  match f with
  | .mk bl cl ul vl pc fl => by
    have hch := mutateChildren_permuted cl opt g pos
    rw [try_mutate]
    exact foldl_applyStep_permuted g opt _ _
      (Permuted.mk bl cl ul vl pc fl bl _ ul vl (mutateChildren cl opt g pos).1
        (List.Perm.refl _) (List.Perm.refl _) (List.Perm.refl _) hch
        (List.Perm.refl _))

/-- The child loop of `try_mutate` relates child lists pointwise. -/
theorem mutateChildren_permuted (cs : List (Nat × Func)) (opt : List Mutation)
    (g : Nat → Nat) (pos : Nat) :
    PermutedChildren cs (mutateChildren cs opt g pos).1 :=
  match cs with
  | [] => by rw [mutateChildren]; exact PermutedChildren.nil
  | (k, cf) :: rest => by
    rw [mutateChildren]
    exact PermutedChildren.cons k cf _ rest _
      (try_mutate_permuted cf opt g pos)
      (mutateChildren_permuted rest opt g (try_mutate cf opt g pos).2)

end

/-- Claim C7: for every function tree and every sequence of `Random`
and `Sorted` steps, `try_mutate` only permutes the four positional
containers at each node — blocks, upvalue entries and value entries
move as whole `(key, payload)` elements, children keep their key and
are themselves only recursively permuted — so every per-container
multiset and every element's own content is unchanged. -/
theorem claim_C7_mutation_only_permutes (f : Func) (opt : List Mutation)
    (g : Nat → Nat) (pos : Nat) : Permuted f (try_mutate f opt g pos).1 :=
  try_mutate_permuted f opt g pos

/-- `applyStep` with `Sorted` is idempotent: sorting the four
already-sorted containers changes nothing. -/
theorem applyStep_sorted_idem (g : Nat → Nat) (st : Func × Nat) :
    applyStep g (applyStep g st Mutation.Sorted) Mutation.Sorted
      = applyStep g st Mutation.Sorted := by
  obtain ⟨f, pos⟩ := st
  match f with
  | .mk bl cl ul vl pc fl =>
    simp only [applyStep, sortByKey_idem]

mutual

/-- Running `try_mutate` with two consecutive `Sorted` steps is the
same as running it with one. -/
theorem try_mutate_sorted_twice (f : Func) (g : Nat → Nat) (pos : Nat) :
    try_mutate f [Mutation.Sorted, Mutation.Sorted] g pos
      = try_mutate f [Mutation.Sorted] g pos :=
  match f with
  | .mk bl cl ul vl pc fl => by
    rw [try_mutate, try_mutate, mutateChildren_sorted_twice cl g pos]
    simp only [List.foldl_cons, List.foldl_nil, applyStep_sorted_idem]

/-- The child loop with two consecutive `Sorted` steps equals the
child loop with one. -/
theorem mutateChildren_sorted_twice (cs : List (Nat × Func)) (g : Nat → Nat)
    (pos : Nat) :
    mutateChildren cs [Mutation.Sorted, Mutation.Sorted] g pos
      = mutateChildren cs [Mutation.Sorted] g pos :=
  match cs with
  | [] => by rw [mutateChildren, mutateChildren]
  | (k, cf) :: rest => by
    rw [mutateChildren, mutateChildren]
    rw [try_mutate_sorted_twice cf g pos,
      mutateChildren_sorted_twice rest g (try_mutate cf [Mutation.Sorted] g pos).2]

end

/-- Claim C8: applying the `Sorted` step twice in a row yields exactly
the same container order at every node of the tree as applying it
once. -/
theorem claim_C8_sort_idempotent (f : Func) (g : Nat → Nat) (pos : Nat) :
    try_mutate f [Mutation.Sorted, Mutation.Sorted] g pos
      = try_mutate f [Mutation.Sorted] g pos :=
  try_mutate_sorted_twice f g pos

/-! ### Codec round-trip (C1) and trailing bytes (C9) -/

/-- A successful byte read came off the front of the input. -/
theorem readByte_rt : ∀ (bytes : List Nat) (b : Nat) (rest : List Nat),
    readByte bytes = .ok (b, rest) → bytes = writeByte b ++ rest := by
  intro bytes b rest h
  match bytes with
  | [] => simp [readByte] at h
  | x :: xs =>
    simp only [readByte] at h
    split at h
    · rename_i hlt
      cases h
      simp [writeByte, Nat.mod_eq_of_lt hlt]
    · cases h

/-- A successful expected-byte read came off the front of the input. -/
theorem expectByte_rt : ∀ (c : Nat) (bytes : List Nat) (u : Unit) (rest : List Nat),
    expectByte c bytes = .ok (u, rest) → bytes = c :: rest := by
  intro c bytes u rest h
  unfold expectByte at h
  split at h
  · cases h
  · rename_i b r1 hrb
    split at h
    · rename_i hbc
      cases h
      have := readByte_rt _ _ _ hrb
      rw [this, hbc]
      have hlt : b < 256 := by
        match bytes with
        | [] => simp [readByte] at hrb
        | x :: xs =>
          simp only [readByte] at hrb
          split at hrb
          · rename_i hx; cases hrb; exact hx
          · cases hrb
      simp [writeByte, hbc ▸ Nat.mod_eq_of_lt hlt]
    · cases h

/-- A successful header match came off the front of the input. -/
theorem expectBytes_rt : ∀ (cs bytes : List Nat) (u : Unit) (rest : List Nat),
    expectBytes cs bytes = .ok (u, rest) → bytes = cs ++ rest := by
  intro cs
  induction cs with
  | nil => intro bytes u rest h; cases h; rfl
  | cons c cs ih =>
    intro bytes u rest h
    unfold expectBytes at h
    split at h
    · cases h
    · rename_i u1 r1 he
      rw [expectByte_rt c bytes u1 r1 he, List.cons_append]
      rw [ih r1 u rest h]

/-- A successful little-endian read is re-emitted byte-identically by
the little-endian writer. -/
theorem readLE_rt : ∀ (n : Nat) (bytes : List Nat) (v : Nat) (rest : List Nat),
    readLE n bytes = .ok (v, rest) → bytes = writeLE n v ++ rest := by
  intro n
  induction n with
  | zero => intro bytes v rest h; cases h; rfl
  | succ n ih =>
    intro bytes v rest h
    unfold readLE at h
    split at h
    · cases h
    · rename_i b r1 hb
      split at h
      · cases h
      · rename_i v' rest' hv
        cases h
        have hbytes := readByte_rt _ _ _ hb
        have hr1 := ih _ _ _ hv
        have hblt : b < 256 := by
          match bytes with
          | [] => simp [readByte] at hb
          | x :: xs =>
            simp only [readByte] at hb
            split at hb
            · rename_i hx; cases hb; exact hx
            · cases hb
        rw [hbytes, hr1]
        have h1 : (b + 256 * v') % 256 = b := by omega
        have h2 : (b + 256 * v') / 256 = v' := by omega
        simp [writeLE, writeByte, h1, h2, Nat.mod_eq_of_lt hblt]

/-- A successful counted read is re-emitted by writing each element,
and returns exactly `n` elements. -/
theorem readCount_rt (rd : List Nat → Except String (α × List Nat))
    (wr : α → List Nat)
    (hrt : ∀ bytes a rest, rd bytes = .ok (a, rest) → bytes = wr a ++ rest) :
    ∀ (n : Nat) (bytes : List Nat) (l : List α) (rest : List Nat),
      readCount rd n bytes = .ok (l, rest) →
      bytes = writeAll wr l ++ rest ∧ l.length = n := by
  intro n
  induction n with
  | zero =>
    intro bytes l rest h
    cases h
    exact ⟨rfl, rfl⟩
  | succ n ih =>
    intro bytes l rest h
    unfold readCount at h
    split at h
    · cases h
    · rename_i a r1 ha
      split at h
      · cases h
      · rename_i l' rest' hl
        cases h
        obtain ⟨hr1, hlen⟩ := ih _ _ _ hl
        refine ⟨?_, by simp [hlen]⟩
        rw [hrt _ _ _ ha, hr1]
        simp [writeAll, List.append_assoc]

/-- A successful instruction-word read is re-emitted byte-identically. -/
theorem readInstrWord_rt : ∀ (bytes : List Nat) (w : Nat) (rest : List Nat),
    readInstrWord bytes = .ok (w, rest) → bytes = writeInstrWord w ++ rest := by
  intro bytes w rest h
  unfold readInstrWord at h
  split at h
  · cases h
  · rename_i v r1 hv
    split at h
    · cases h
      exact readLE_rt _ _ _ _ hv
    · cases h

/-- A successful upvalue-descriptor read is re-emitted
byte-identically. -/
theorem readUpval_rt : ∀ (bytes : List Nat) (u : Nat × Nat × Nat) (rest : List Nat),
    readUpval bytes = .ok (u, rest) → bytes = writeUpval u ++ rest := by
  intro bytes u rest h
  unfold readUpval at h
  split at h
  · cases h
  · rename_i a r1 ha
    split at h
    · cases h
    · rename_i b r2 hb
      split at h
      · cases h
      · rename_i c r3 hc
        cases h
        have h1 := readByte_rt _ _ _ ha
        have h2 := readByte_rt _ _ _ hb
        have h3 := readByte_rt _ _ _ hc
        have ha' : a < 256 := by
          match bytes with
          | [] => simp [readByte] at ha
          | x :: xs =>
            simp only [readByte] at ha
            split at ha
            · rename_i hx; cases ha; exact hx
            · cases ha
        have hb' : b < 256 := by
          match r1 with
          | [] => simp [readByte] at hb
          | x :: xs =>
            simp only [readByte] at hb
            split at hb
            · rename_i hx; cases hb; exact hx
            · cases hb
        have hc' : c < 256 := by
          match r2 with
          | [] => simp [readByte] at hc
          | x :: xs =>
            simp only [readByte] at hc
            split at hc
            · rename_i hx; cases hc; exact hx
            · cases hc
        rw [h1, h2, h3]
        simp [writeUpval, writeByte, Nat.mod_eq_of_lt, ha', hb', hc']

/-- A successfully read byte is below 256. -/
theorem readByte_lt : ∀ (bytes : List Nat) (b : Nat) (rest : List Nat),
    readByte bytes = .ok (b, rest) → b < 256 := by
  intro bytes b rest h
  match bytes with
  | [] => simp [readByte] at h
  | x :: xs =>
    simp only [readByte] at h
    split at h
    · rename_i hx; cases h; exact hx
    · cases h

/-- A successful constant-pool read is re-emitted byte-identically. -/
theorem readValue_rt : ∀ (bytes : List Nat) (v : LuaValue) (rest : List Nat),
    readValue bytes = .ok (v, rest) → bytes = writeValue v ++ rest := by
  intro bytes v rest h
  unfold readValue at h
  split at h
  · cases h
  · rename_i tag r1 htag
    have hbytes := readByte_rt _ _ _ htag
    have htaglt := readByte_lt _ _ _ htag
    split at h
    · rename_i h0
      cases h
      rw [hbytes, h0]
      rfl
    · split at h
      · rename_i hne0 h1
        split at h
        · cases h
        · rename_i b r2 hb
          split at h
          · rename_i hble
            cases h
            have hr1 := readByte_rt _ _ _ hb
            rw [hbytes, h1, hr1]
            have hb01 : b = 0 ∨ b = 1 := by omega
            rcases hb01 with rfl | rfl
            · rfl
            · rfl
          · cases h
      · split at h
        · rename_i hne0 hne1 h2
          split at h
          · cases h
          · rename_i v8 r2 hv8
            cases h
            rw [hbytes, h2, readLE_rt _ _ _ _ hv8]
            rfl
        · split at h
          · rename_i hne0 hne1 hne2 h3
            split at h
            · cases h
            · rename_i v8 r2 hv8
              cases h
              rw [hbytes, h3, readLE_rt _ _ _ _ hv8]
              rfl
          · split at h
            · rename_i hne0 hne1 hne2 hne3 h4
              split at h
              · cases h
              · rename_i len r2 hlen
                split at h
                · cases h
                · rename_i s r3 hs
                  cases h
                  obtain ⟨hr2, hslen⟩ := readCount_rt readByte writeByte readByte_rt _ _ _ _ hs
                  rw [hbytes, h4, readLE_rt _ _ _ _ hlen, hr2, ← hslen]
                  simp [writeValue, writeByte, List.append_assoc]
            · cases h

/-- Writing a child-record list elementwise. -/
theorem writeProtos_eq (ps : List Proto) : writeProtos ps = writeAll writeProto ps := by
  induction ps with
  | nil => rfl
  | cons p ps ih => rw [writeProtos, writeAll, ih]

/-- A successful `Proto` read is re-emitted byte-identically by the
writer, for any fuel. -/
theorem readProto_rt : ∀ (fuel : Nat) (bytes : List Nat) (p : Proto) (rest : List Nat),
    readProto fuel bytes = .ok (p, rest) → bytes = writeProto p ++ rest := by
  intro fuel
  induction fuel with
  | zero => intro bytes p rest h; simp [readProto] at h
  | succ fuel ih =>
    intro bytes p rest h
    unfold readProto at h
    split at h
    · cases h
    rename_i pc r1 hpc
    split at h
    · cases h
    rename_i fl r2 hfl
    split at h
    · cases h
    rename_i ncode r3 hncode
    split at h
    · cases h
    rename_i code r4 hcode
    split at h
    · cases h
    rename_i nconst r5 hnconst
    split at h
    · cases h
    rename_i consts r6 hconsts
    split at h
    · cases h
    rename_i nchild r7 hnchild
    split at h
    · cases h
    rename_i children r8 hchildren
    split at h
    · cases h
    rename_i nup r9 hnup
    split at h
    · cases h
    rename_i upvals r10 hupvals
    split at h
    · cases h
    rename_i nlines r11 hnlines
    split at h
    · cases h
    rename_i lines r12 hlines
    cases h
    obtain ⟨hr3, hcl⟩ := readCount_rt readInstrWord writeInstrWord readInstrWord_rt _ _ _ _ hcode
    obtain ⟨hr5, hkl⟩ := readCount_rt readValue writeValue readValue_rt _ _ _ _ hconsts
    obtain ⟨hr7, hchl⟩ := readCount_rt (readProto fuel) writeProto ih _ _ _ _ hchildren
    obtain ⟨hr9, hul⟩ := readCount_rt readUpval writeUpval readUpval_rt _ _ _ _ hupvals
    obtain ⟨hr11, hll⟩ := readCount_rt readByte writeByte readByte_rt _ _ _ _ hlines
    rw [readByte_rt _ _ _ hpc, readByte_rt _ _ _ hfl, readLE_rt _ _ _ _ hncode,
      hr3, readLE_rt _ _ _ _ hnconst, hr5, readLE_rt _ _ _ _ hnchild, hr7,
      readLE_rt _ _ _ _ hnup, hr9, readLE_rt _ _ _ _ hnlines, hr11,
      ← hcl, ← hkl, ← hchl, ← hul, ← hll]
    simp only [writeProto, writeProtos_eq, List.append_assoc]

/-- A successful module load is re-emitted byte-identically followed by
its trailing bytes. -/
theorem load_lua_module_rt : ∀ (bytes trail : List Nat) (p : Proto),
    load_lua_module bytes = .ok (trail, p) →
    bytes = dump_lua_module p ++ trail := by
  intro bytes trail p h
  unfold load_lua_module at h
  split at h
  · cases h
  rename_i u r1 hhdr
  split at h
  · cases h
  rename_i p' r2 hp
  cases h
  rw [expectBytes_rt _ _ _ _ hhdr, readProto_rt _ _ _ _ hp]
  simp [dump_lua_module, List.append_assoc]

/-- Claim C1: decoding a valid chunk with no trailing bytes and
re-encoding the resulting `Proto` reproduces the chunk byte for
byte. -/
theorem claim_C1_roundtrip (bytes : List Nat) (p : Proto)
    (h : load_lua_module bytes = .ok ([], p)) :
    dump_lua_module p = bytes := by
  have := load_lua_module_rt bytes [] p h
  rw [List.append_nil] at this
  exact this.symm

/-- Witness for `claim_C1_roundtrip` on a minimal chunk: the header
followed by an empty top-level function record. -/
theorem claim_C1_roundtrip_witness :
    load_lua_module
        [27, 76, 117, 97, 84, 0, 0, 0, 0, 0, 0, 0, 0, 0, 0, 0, 0, 0, 0, 0, 0,
         0, 0, 0, 0, 0, 0, 0]
      = .ok ([], Proto.mk 0 0 [] [] [] [] []) ∧
    dump_lua_module (Proto.mk 0 0 [] [] [] [] [])
      = [27, 76, 117, 97, 84, 0, 0, 0, 0, 0, 0, 0, 0, 0, 0, 0, 0, 0, 0, 0, 0,
         0, 0, 0, 0, 0, 0, 0] :=
  ⟨rfl, claim_C1_roundtrip _ _ rfl⟩

/-- Claim C9: the decoder returns unused trailing bytes to the caller
as a non-fatal signal, and `disassemble_data` treats a non-empty
remainder as fatal — it stops with the trailing-garbage error and
produces no output. -/
theorem claim_C9_trailing_garbage (functionFrom : Proto → Func)
    (opt : List Mutation) (g : Nat → Nat) (pos : Nat)
    (data trail : List Nat) (proto : Proto)
    (hload : load_lua_module data = .ok (trail, proto))
    (hne : trail ≠ []) :
    disassemble_data functionFrom opt g pos data
      = .error "trailing garbage in Lua file" := by
  unfold disassemble_data
  rw [hload]
  have : trail.isEmpty = false := by
    cases trail with
    | nil => exact absurd rfl hne
    | cons a l => rfl
  simp [this]

/-- Witness for `claim_C9_trailing_garbage`: the minimal chunk followed
by one garbage byte decodes with remainder `[7]`, and the disassemble
command fails on it. -/
theorem claim_C9_trailing_garbage_witness :
    load_lua_module
        [27, 76, 117, 97, 84, 0, 0, 0, 0, 0, 0, 0, 0, 0, 0, 0, 0, 0, 0, 0, 0,
         0, 0, 0, 0, 0, 0, 0, 7]
      = .ok ([7], Proto.mk 0 0 [] [] [] [] []) ∧
    disassemble_data (fun _ => Func.mk [] [] [] [] 0 0) [] (fun _ => 0) 0
        [27, 76, 117, 97, 84, 0, 0, 0, 0, 0, 0, 0, 0, 0, 0, 0, 0, 0, 0, 0, 0,
         0, 0, 0, 0, 0, 0, 0, 7]
      = .error "trailing garbage in Lua file" :=
  ⟨rfl,
    claim_C9_trailing_garbage (fun _ => Func.mk [] [] [] [] 0 0) [] (fun _ => 0) 0
      _ [7] (Proto.mk 0 0 [] [] [] [] []) rfl (by decide)⟩
